import Mathlib

/-!
Verification of the pixel classification and mask-compositing engine of the
`bg-remover` repository (file `bg-remover-core.js`, `BackgroundRemoverCore`).

The JavaScript code is shallowly embedded:

* an RGBA raster is a `List Pixel` in row-major order, pixel channels are
  naturals (the source stores 8-bit channels; every value the engine writes
  back is at most the original 255-bounded channel, so no wrap-around occurs
  and naturals are faithful);
* `calculateColorDistance` returns `Math.sqrt` of an integer, so every
  comparison `distance <= t` with a natural `t` is embedded as the exact
  integer comparison `distSq ≤ t ^ 2` (`sqrt_le_iff_sq` proves the
  agreement), and the feathering expression
  `Math.floor(a * (distance - threshold) / feather)` is embedded by the
  exact natural-arithmetic value `featherAlpha` (the agreement with the
  real-number floor is proved in `featherAlpha_eq_floor`);
* the fallible entry points (`throw` / `try-catch`) are embedded with
  `Except`;
* the boolean `visited` array of `findConnectedComponents`, indexed by
  `y * width + x`, is embedded as the `Finset` of marked cells `(x, y)`,
  and the `Math.max(0, v - padding)` clamps of the compositing loops become
  truncated natural subtraction.
-/

namespace BgRemover

/-- An RGB reference color, as the `{r, g, b}` objects of the source. -/
structure RGBColor where
  r : ℕ
  g : ℕ
  b : ℕ
deriving DecidableEq, Repr

/-- One RGBA pixel of a raster, the four bytes at `idx .. idx+3` of
`image.bitmap.data` in the source. -/
structure Pixel where
  r : ℕ
  g : ℕ
  b : ℕ
  a : ℕ
deriving DecidableEq, Repr

/-- The all-zero pixel, used as the out-of-range default of `List.getD`
reads in raster statements (a raster never yields it for an in-range
index of interest, because its alpha is compared against concrete data). -/
def blankPixel : Pixel := ⟨0, 0, 0, 0⟩

/-- Squared Euclidean RGB distance.  The source's `calculateColorDistance`
(lines 263-268) returns `Math.sqrt` of exactly this integer; the embedding
keeps the square so that all arithmetic stays exact. -/
def distSq (c1 c2 : RGBColor) : ℕ :=
  ((c1.r : ℤ) - c2.r).natAbs ^ 2 + ((c1.g : ℤ) - c2.g).natAbs ^ 2 +
    ((c1.b : ℤ) - c2.b).natAbs ^ 2

/-- The color of a pixel, as read at `idx+0 .. idx+2` in the scan callbacks. -/
def Pixel.color (p : Pixel) : RGBColor := ⟨p.r, p.g, p.b⟩

/-- Digit-by-digit integer square root with explicit fuel (the fuel only
bounds the recursion depth; `n` itself is always enough).  Structural
recursion keeps it kernel-reducible, unlike `Nat.sqrt`;
`isqrt_eq_nat_sqrt` proves they agree. -/
def isqrtFuel : ℕ → ℕ → ℕ
  | 0, _ => 0
  | fuel + 1, n =>
    if n < 2 then n
    else if (2 * isqrtFuel fuel (n / 4) + 1) * (2 * isqrtFuel fuel (n / 4) + 1) ≤ n then
      2 * isqrtFuel fuel (n / 4) + 1
    else
      2 * isqrtFuel fuel (n / 4)

/-- Integer square root (the floor of the real square root). -/
def isqrt (n : ℕ) : ℕ := isqrtFuel n n

/-- The feathered alpha written at line 236 of the source,
`Math.floor(a * ((distance - threshold) / feather))` with
`distance = Math.sqrt d2`.  Because `a * Real.sqrt d2 = Real.sqrt (a^2 * d2)`
and `t`, `f` are naturals, the floor equals this natural-arithmetic value;
`featherAlpha_eq_floor` below proves the agreement. -/
def featherAlpha (a d2 t f : ℕ) : ℕ :=
  (isqrt (a ^ 2 * d2) - a * t) / f

/-- Body of the single-pass `image.scan` callback, lines 216-238 of the
source: remove (alpha 0) within the threshold, feather inside the feather
band when feathering is on, otherwise leave the pixel alone. -/
def classifyPixelSingle (target : RGBColor) (threshold feather : ℕ) (p : Pixel) : Pixel :=
  if distSq p.color target ≤ threshold ^ 2 then
    { p with a := 0 }
  else if 0 < feather ∧ distSq p.color target ≤ (threshold + feather) ^ 2 then
    { p with a := featherAlpha p.a (distSq p.color target) threshold feather }
  else
    p

/-- Single-pass color classification of a whole raster (the
`image.scan(0, 0, width, height, ...)` call at line 216 visits every pixel
independently). -/
def removeBackgroundColorSingle (target : RGBColor) (threshold feather : ℕ)
    (img : List Pixel) : List Pixel :=
  img.map (classifyPixelSingle target threshold feather)

/-- One entry of `this.colorPasses`: a reference color and a threshold. -/
structure ColorPass where
  color : RGBColor
  threshold : ℕ
deriving DecidableEq, Repr

/-- Body of the multi-pass `image.scan` callback, lines 162-182 of the
source: already-transparent pixels are skipped, pixels within the pass
threshold are made transparent, everything else is untouched. -/
def classifyPixelPass (pass : ColorPass) (p : Pixel) : Pixel :=
  if p.a = 0 then p
  else if distSq p.color pass.color ≤ pass.threshold ^ 2 then { p with a := 0 }
  else p

/-- Multi-pass color classification, lines 155-185 of the source: each pass
of `this.colorPasses` is applied in order over the same raster. -/
def removeBackgroundColorMulti (passes : List ColorPass) (img : List Pixel) : List Pixel :=
  passes.foldl (fun acc pass => acc.map (classifyPixelPass pass)) img

/-- Multi-pass classification of one pixel (the per-pixel trace of
`removeBackgroundColorMulti`; `removeBackgroundColorMulti_eq_map` below
proves the two views agree). -/
def multiPassPixel (passes : List ColorPass) (p : Pixel) : Pixel :=
  passes.foldl (fun q pass => classifyPixelPass pass q) p

/-- Entry into single-pass color mode, lines 197-238 of the source: the
missing-target-color check (`throw new Error('Target color not specified...')`
at line 199) runs before the image is even loaded, and no other
configuration check exists on this path — the threshold is never
validated. -/
def removeBackgroundColorChecked (targetColor : Option RGBColor) (threshold feather : ℕ)
    (img : List Pixel) : Except String (List Pixel) :=
  match targetColor with
  | none => .error "Target color not specified. Use --target-color option."
  | some c => .ok (removeBackgroundColorSingle c threshold feather img)

/-! ### Regions, text detection, mask compositing -/

/-- A detected region.  The source builds these as plain objects: the
connected-component path (lines 448-454) fills `x`, `y`, `width`, `height`,
`pixelCount`; the OCR path (lines 483-490) fills `x`, `y`, `width`,
`height`, `text`, `confidence`.  The fields absent on each path are
embedded as `none`. -/
structure Region where
  x : ℕ
  y : ℕ
  width : ℕ
  height : ℕ
  pixelCount : Option ℕ := none
  text : Option String := none
  confidence : Option ℚ := none
deriving DecidableEq, Repr

/-- One recognized word of the OCR collaborator's output
(`result.data.words` in the source); `bbox` may be absent, which the
source guards with `if (word.bbox)`. -/
structure OCRWord where
  bbox : Option (ℕ × ℕ × ℕ × ℕ)
  text : String
  confidence : ℚ
deriving DecidableEq, Repr

/-- The OCR collaborator's result payload; `words` is `none` when
`result.data` or `result.data.words` is absent (the source checks
`if (result.data && result.data.words)`). -/
structure OCRData where
  words : Option (List OCRWord)
deriving DecidableEq, Repr

/-- OCR-based text detection, lines 468-501 of the source
(`detectTextRegions`).  The `Tesseract.recognize` call either throws or
returns a result; the whole body is wrapped in `try-catch` and the catch
branch returns `[]`.  A word's bbox `(x0, y0, x1, y1)` becomes a region
`x=x0, y=y0, width=x1-x0, height=y1-y0` (coordinates are non-negative, so
natural subtraction is exact for the well-formed `x1 ≥ x0` boxes the
collaborator produces). -/
def detectTextRegions (ocrResult : Except String OCRData) : List Region :=
  match ocrResult with
  | .error _ => []
  | .ok result =>
    match result.words with
    | none => []
    | some ws =>
      ws.filterMap (fun w =>
        match w.bbox with
        | none => none
        | some (x0, y0, x1, y1) =>
          some { x := x0, y := y0, width := x1 - x0, height := y1 - y0,
                 text := some w.text, confidence := some w.confidence })

/-- The pixel written into every cell of a padded region, lines 332-335 of
the source: RGB copied from the original image at the same index, alpha
forced to 255. -/
def writtenPixel (src : List Pixel) (idx : ℕ) : Pixel :=
  ⟨(src.getD idx blankPixel).r, (src.getD idx blankPixel).g, (src.getD idx blankPixel).b, 255⟩

/-- The cells visited by the nested loops at lines 328-329 of the source:
`Math.max(0, y - padding) <= py < Math.min(height, y + h + padding)` and
likewise for `px` (truncated natural subtraction is exactly the
`Math.max(0, ...)` clamp). -/
def inPaddedRegion (w h pad : ℕ) (reg : Region) (px py : ℕ) : Prop :=
  reg.y - pad ≤ py ∧ py < min h (reg.y + reg.height + pad) ∧
    reg.x - pad ≤ px ∧ px < min w (reg.x + reg.width + pad)

instance (w h pad : ℕ) (reg : Region) (px py : ℕ) :
    Decidable (inPaddedRegion w h pad reg px py) := by
  unfold inPaddedRegion
  infer_instance

/-- Writing one region into the base raster (the body of the
`for (const region of textRegions)` loop, lines 323-337): every cell of the
clipped padded rectangle gets `writtenPixel`, every other cell keeps its
value.  Cell `(px, py)` of a width-`w` raster sits at list index
`py * w + px`, so index `i` is cell `(i % w, i / w)`. -/
def writeRegion (src : List Pixel) (w h pad : ℕ) (reg : Region) (base : List Pixel) :
    List Pixel :=
  base.mapIdx fun i p =>
    if inPaddedRegion w h pad reg (i % w) (i / w) then writtenPixel src i else p

/-- Mask compositing, lines 323-338 of the source: the regions are written
into the base mask one after the other. -/
def compositeRegions (src : List Pixel) (w h pad : ℕ) (regions : List Region)
    (base : List Pixel) : List Pixel :=
  regions.foldl (fun acc reg => writeRegion src w h pad reg acc) base

/-- Cell `(px, py)` is inside some region of the list (the pointwise
condition that decides a pixel's final value under `compositeRegions`). -/
def coveredBy (w h pad : ℕ) (regions : List Region) (px py : ℕ) : Prop :=
  ∃ reg ∈ regions, inPaddedRegion w h pad reg px py

instance (w h pad : ℕ) (regions : List Region) (px py : ℕ) :
    Decidable (coveredBy w h pad regions px py) := by
  unfold coveredBy
  infer_instance

/-! ### Connected components over a boolean mask -/

/-- A grid cell `(x, y)`. -/
abbrev Cell := ℕ × ℕ

/-- A boolean mask over a `width × height` grid, the `mask` array of the
source indexed by `y * width + x` (out-of-range reads, which the source
never performs, default to `false`). -/
structure BoolMask where
  width : ℕ
  height : ℕ
  data : List Bool
deriving DecidableEq, Repr

/-- Reading the mask at cell `(x, y)`. -/
def BoolMask.cell (m : BoolMask) (x y : ℕ) : Bool :=
  m.data.getD (y * m.width + x) false

/-- The eight neighbor offsets of `findConnectedComponents`, line 405 of
the source, in source order. -/
def directions : List (ℤ × ℤ) :=
  [(-1, 0), (1, 0), (0, -1), (0, 1), (-1, -1), (-1, 1), (1, -1), (1, 1)]

/-- The in-bounds neighbors of `(x, y)` under the eight `directions`
(the `nx >= 0 && nx < width && ny >= 0 && ny < height` checks at line 421
of the source). -/
def neighborCells (m : BoolMask) (x y : ℕ) : List Cell :=
  directions.filterMap fun d =>
    if 0 ≤ (x : ℤ) + d.1 ∧ (x : ℤ) + d.1 < (m.width : ℤ) ∧
        0 ≤ (y : ℤ) + d.2 ∧ (y : ℤ) + d.2 < (m.height : ℤ) then
      some (((x : ℤ) + d.1).toNat, ((y : ℤ) + d.2).toNat)
    else none

/-- All in-bounds cells of the grid. -/
def allCells (m : BoolMask) : Finset Cell :=
  Finset.range m.width ×ˢ Finset.range m.height

/-- Two cells are 8-adjacent on the mask: both true, both in bounds, and
offset by one of the eight `directions`. -/
def adjacent (m : BoolMask) (c d : Cell) : Prop :=
  m.cell c.1 c.2 = true ∧ m.cell d.1 d.2 = true ∧
    c.1 < m.width ∧ c.2 < m.height ∧ d.1 < m.width ∧ d.2 < m.height ∧
    ((d.1 : ℤ) - c.1, (d.2 : ℤ) - c.2) ∈ directions

instance (m : BoolMask) (c d : Cell) : Decidable (adjacent m c d) := by
  unfold adjacent
  infer_instance

/-- Connectivity: the reflexive-transitive closure of 8-adjacency. -/
def connectedCells (m : BoolMask) : Cell → Cell → Prop :=
  Relation.ReflTransGen (adjacent m)

/-- Connectivity through cells outside a blocked set `B`: every step must
land outside `B`. -/
def reachAvoid (m : BoolMask) (B : Finset Cell) : Cell → Cell → Prop :=
  Relation.ReflTransGen fun c d => adjacent m c d ∧ d ∉ B

/-- One round of closing a cell set under adjacency. -/
def expand (m : BoolMask) (s : Finset Cell) : Finset Cell :=
  s ∪ (allCells m).filter fun d => ∃ c ∈ s, adjacent m c d

/-- The connected component of a cell, computed by closing `{c}` under
adjacency; `width * height` rounds always reach the fixed point
(`mem_componentFin_iff` relates it to `connectedCells`). -/
def componentFin (m : BoolMask) (c : Cell) : Finset Cell :=
  (expand m)^[m.width * m.height] {c}

/-- The breadth-first traversal of `findConnectedComponents`, lines 407-430
of the source.  The queue is popped from the front (`queue.shift()`), the
popped cell is appended to `points`, and every in-bounds, unvisited, true
neighbor is marked visited and pushed to the back of the queue. -/
def bfsAux (m : BoolMask) (queue : List Cell) (visited : Finset Cell) (points : List Cell) :
    Finset Cell × List Cell :=
  match queue with
  | [] => (visited, points)
  | c :: rest =>
    let newCells := (neighborCells m c.1 c.2).filter
      fun d => decide (d ∉ visited) && m.cell d.1 d.2
    bfsAux m (rest ++ newCells) (visited ∪ newCells.toFinset) (points ++ [c])
termination_by ((allCells m \ visited).card, queue.length)
decreasing_by
  by_cases hn : (neighborCells m c.1 c.2).filter
      (fun d => decide (d ∉ visited) && m.cell d.1 d.2) = []
  · rw [hn]
    simp only [List.toFinset_nil, Finset.union_empty, List.append_nil]
    exact Prod.Lex.right _ (Nat.lt_succ_self _)
  · obtain ⟨q, hq⟩ := List.exists_mem_of_ne_nil _ hn
    apply Prod.Lex.left
    apply Finset.card_lt_card
    have hq2 := List.of_mem_filter hq
    have hq1 := List.mem_of_mem_filter hq
    simp only [Bool.and_eq_true, decide_eq_true_eq] at hq2
    have hqb : q ∈ allCells m := by
      simp only [neighborCells, List.mem_filterMap] at hq1
      obtain ⟨dd, -, hdd⟩ := hq1
      by_cases hb : 0 ≤ (c.1 : ℤ) + dd.1 ∧ (c.1 : ℤ) + dd.1 < (m.width : ℤ) ∧
          0 ≤ (c.2 : ℤ) + dd.2 ∧ (c.2 : ℤ) + dd.2 < (m.height : ℤ)
      · rw [if_pos hb, Option.some_inj] at hdd
        subst hdd
        simp only [allCells, Finset.mem_product, Finset.mem_range]
        omega
      · rw [if_neg hb] at hdd
        exact absurd hdd (Option.noConfusion)
    constructor
    · exact Finset.sdiff_subset_sdiff le_rfl Finset.subset_union_left
    · intro hsub
      have hmem : q ∈ allCells m \ visited := Finset.mem_sdiff.mpr ⟨hqb, hq2.1⟩
      have := hsub hmem
      rw [Finset.mem_sdiff] at this
      exact this.2 (Finset.mem_union_right _ (List.mem_toFinset.mpr hq))

/-- One component search, lines 407-411 of the source: the start cell is
marked visited, seeds the queue, and the traversal returns the updated
visited set and the collected points. -/
def bfs (m : BoolMask) (start : Cell) (visited : Finset Cell) : Finset Cell × List Cell :=
  bfsAux m [start] (insert start visited) []

/-- The row-major cell order of the outer double loop at lines 433-434 of
the source. -/
def scanOrder (m : BoolMask) : List Cell :=
  (List.range m.height).flatMap fun y => (List.range m.width).map fun x => (x, y)

/-- Minimum pixels for a valid text region, line 403 of the source. -/
def minRegionSize : ℕ := 50

/-- The bounding-box region of a component's point list, lines 440-454 of
the source: `Math.min`/`Math.max` over the collected coordinates (the
`getD 0` default is never taken — the list is non-empty whenever this is
called). -/
def regionOfPoints (pts : List Cell) : Region :=
  { x := ((pts.map Prod.fst).min?).getD 0,
    y := ((pts.map Prod.snd).min?).getD 0,
    width := ((pts.map Prod.fst).max?).getD 0 - ((pts.map Prod.fst).min?).getD 0 + 1,
    height := ((pts.map Prod.snd).max?).getD 0 - ((pts.map Prod.snd).min?).getD 0 + 1,
    pixelCount := some pts.length }

/-- The body of the outer scan loop, lines 435-456 of the source: an
unvisited true cell seeds a traversal, and the component is emitted as a
region exactly when it has at least `minRegionSize` cells. -/
def ccStep (m : BoolMask) (acc : Finset Cell × List Region) (c : Cell) :
    Finset Cell × List Region :=
  if m.cell c.1 c.2 = true ∧ c ∉ acc.1 then
    let res := bfs m c acc.1
    if minRegionSize ≤ res.2.length then (res.1, acc.2 ++ [regionOfPoints res.2])
    else (res.1, acc.2)
  else acc

/-- Connected-component labeling, lines 400-461 of the source
(`findConnectedComponents`): scan the grid row-major with a shared visited
set and collect the emitted regions in discovery order. -/
def findConnectedComponents (m : BoolMask) : List Region :=
  ((scanOrder m).foldl (ccStep m) (∅, [])).2

/-- The bounding-box region of a component given as a cell set — the
specification's description of an emitted region: `x = minX`, `y = minY`,
`width = maxX - minX + 1`, `height = maxY - minY + 1`, `pixelCount` the
cell count. -/
def regionOfComponent (s : Finset Cell) : Region :=
  if h : s.Nonempty then
    { x := (s.image Prod.fst).min' (h.image _),
      y := (s.image Prod.snd).min' (h.image _),
      width := (s.image Prod.fst).max' (h.image _) - (s.image Prod.fst).min' (h.image _) + 1,
      height := (s.image Prod.snd).max' (h.image _) - (s.image Prod.snd).min' (h.image _) + 1,
      pixelCount := some s.card }
  else
    { x := 0, y := 0, width := 0, height := 0, pixelCount := some 0 }

/-- The components of the mask with at least `minRegionSize` cells: one
entry per connected component of true cells, kept when large enough. -/
def componentsAtLeast (m : BoolMask) : Finset (Finset Cell) :=
  (((allCells m).filter fun c => m.cell c.1 c.2 = true).image (componentFin m)).filter
    fun s => minRegionSize ≤ s.card

/-! ### Arithmetic bridge between the embedding and the source's floats -/

/-- The fueled square root is correctly bracketed once the fuel covers the
argument. -/
theorem isqrtFuel_spec (fuel : ℕ) : ∀ n : ℕ, n ≤ fuel →
    isqrtFuel fuel n * isqrtFuel fuel n ≤ n ∧
      n < (isqrtFuel fuel n + 1) * (isqrtFuel fuel n + 1) := by
  induction fuel with
  | zero =>
    intro n hn
    have hn0 : n = 0 := by omega
    subst hn0
    simp [isqrtFuel]
  | succ fuel ih =>
    intro n hn
    rw [isqrtFuel]
    by_cases h2 : n < 2
    · rw [if_pos h2]
      constructor
      · nlinarith
      · nlinarith
    · rw [if_neg h2]
      obtain ⟨hl, hu⟩ := ih (n / 4) (by omega)
      by_cases hc : (2 * isqrtFuel fuel (n / 4) + 1) * (2 * isqrtFuel fuel (n / 4) + 1) ≤ n
      · rw [if_pos hc]
        refine ⟨hc, ?_⟩
        have h1 : (2 * isqrtFuel fuel (n / 4) + 1 + 1) * (2 * isqrtFuel fuel (n / 4) + 1 + 1)
            = 4 * ((isqrtFuel fuel (n / 4) + 1) * (isqrtFuel fuel (n / 4) + 1)) := by ring
        omega
      · rw [if_neg hc]
        refine ⟨?_, by omega⟩
        have h1 : (2 * isqrtFuel fuel (n / 4)) * (2 * isqrtFuel fuel (n / 4))
            = 4 * (isqrtFuel fuel (n / 4) * isqrtFuel fuel (n / 4)) := by ring
        omega

/-- The structural square root agrees with `Nat.sqrt`. -/
theorem isqrt_eq_nat_sqrt (n : ℕ) : isqrt n = Nat.sqrt n := by
  obtain ⟨h1, h2⟩ := isqrtFuel_spec n n le_rfl
  apply le_antisymm
  · exact Nat.le_sqrt.mpr h1
  · exact Nat.lt_succ_iff.mp (Nat.sqrt_lt.mpr h2)

/-- Comparison with a natural threshold commutes with the square-root: the
source's `Math.sqrt d2 <= t` is exactly the embedded `d2 ≤ t ^ 2`. -/
theorem sqrt_le_iff_sq (d2 t : ℕ) : Real.sqrt d2 ≤ t ↔ d2 ≤ t ^ 2 := by
  rw [Real.sqrt_le_left (by positivity)]
  exact_mod_cast Iff.rfl

/-- The embedded feathered alpha is the exact value of the source's
`Math.floor(a * ((Math.sqrt d2 - t) / f))` whenever the pixel is past the
threshold (`t ^ 2 ≤ d2`), which always holds on the feather branch. -/
theorem featherAlpha_eq_floor (a d2 t f : ℕ) (ht : t ^ 2 ≤ d2) :
    featherAlpha a d2 t f = ⌊(a : ℝ) * ((Real.sqrt d2 - t) / f)⌋₊ := by
  have hts : (t : ℝ) ≤ Real.sqrt d2 := by
    rw [show ((t : ℝ)) = Real.sqrt ((t ^ 2 : ℕ) : ℝ) by
      push_cast
      rw [Real.sqrt_sq (by positivity)]]
    exact Real.sqrt_le_sqrt (by exact_mod_cast ht)
  have hmul : Real.sqrt ((a : ℝ) ^ 2 * (d2 : ℝ)) = (a : ℝ) * Real.sqrt d2 := by
    rw [Real.sqrt_mul (by positivity), Real.sqrt_sq (by positivity)]
  have h1 : (a : ℝ) * ((Real.sqrt d2 - t) / f) =
      (Real.sqrt ((a ^ 2 * d2 : ℕ) : ℝ) - (a * t : ℕ)) / (f : ℕ) := by
    push_cast
    rw [hmul]
    ring
  rw [h1, Nat.floor_div_nat, Nat.floor_sub_nat, Real.nat_floor_real_sqrt_eq_nat_sqrt]
  rw [featherAlpha, isqrt_eq_nat_sqrt]

/-! ### Helper lemmas about the classifiers -/

/-- The feathered alpha is monotone in the squared distance. -/
theorem featherAlpha_mono (a t f : ℕ) {d2 d2' : ℕ} (h : d2 ≤ d2') :
    featherAlpha a d2 t f ≤ featherAlpha a d2' t f := by
  unfold featherAlpha
  rw [isqrt_eq_nat_sqrt, isqrt_eq_nat_sqrt]
  exact Nat.div_le_div_right
    (Nat.sub_le_sub_right (Nat.sqrt_le_sqrt (Nat.mul_le_mul_left _ h)) _)

/-- Setting the alpha of an already-transparent pixel to 0 does nothing. -/
theorem pixel_set_alpha_self {p : Pixel} (h : p.a = 0) : ({ p with a := 0 } : Pixel) = p := by
  cases p
  simp_all

/-- The squared distance vanishes exactly on equal colors. -/
theorem distSq_eq_zero_iff {c1 c2 : RGBColor} : distSq c1 c2 = 0 ↔ c1 = c2 := by
  unfold distSq
  constructor
  · intro h
    simp only [Nat.add_eq_zero, pow_eq_zero_iff (two_ne_zero), Int.natAbs_eq_zero,
      sub_eq_zero] at h
    obtain ⟨⟨h1, h2⟩, h3⟩ := h
    cases c1
    cases c2
    simp only [RGBColor.mk.injEq]
    exact ⟨by exact_mod_cast h1, by exact_mod_cast h2, by exact_mod_cast h3⟩
  · rintro rfl
    simp

/-- The multi-pass scan of a raster is the per-pixel multi-pass map. -/
theorem removeBackgroundColorMulti_eq_map (passes : List ColorPass) (img : List Pixel) :
    removeBackgroundColorMulti passes img = img.map (multiPassPixel passes) := by
  induction passes generalizing img with
  | nil =>
    show img = List.map (fun p => p) img
    rw [List.map_id']
  | cons q ps ih =>
    show removeBackgroundColorMulti ps (img.map (classifyPixelPass q)) = _
    rw [ih, List.map_map]
    rfl

/-- One pass leaves an already-transparent pixel untouched (the early
`if (a === 0) return` at line 169 of the source). -/
theorem classifyPixelPass_of_alpha_zero (pass : ColorPass) {p : Pixel} (h : p.a = 0) :
    classifyPixelPass pass p = p := by
  simp [classifyPixelPass, h]

/-- A whole pass list leaves an already-transparent pixel untouched. -/
theorem multiPassPixel_of_alpha_zero (passes : List ColorPass) {p : Pixel} (h : p.a = 0) :
    multiPassPixel passes p = p := by
  induction passes with
  | nil => rfl
  | cons q ps ih =>
    show multiPassPixel ps (classifyPixelPass q p) = p
    rw [classifyPixelPass_of_alpha_zero q h]
    exact ih

/-- Splitting a pass list splits the per-pixel fold. -/
theorem multiPassPixel_append (l1 l2 : List ColorPass) (p : Pixel) :
    multiPassPixel (l1 ++ l2) p = multiPassPixel l2 (multiPassPixel l1 p) := by
  simp [multiPassPixel]

/-- Reading a mapped raster at an in-range index. -/
theorem getD_map_pixel (f : Pixel → Pixel) (img : List Pixel) (i : ℕ) (hi : i < img.length) :
    (img.map f).getD i blankPixel = f (img.getD i blankPixel) := by
  rw [List.getD_eq_getElem _ _ (by simpa using hi), List.getD_eq_getElem _ _ hi,
    List.getElem_map]

/-- With feathering off, one single-pass step agrees with one multi-pass
step (the only difference between the two scan bodies is the
skip-transparent check, which is invisible when feather is 0). -/
theorem classifyPixelSingle_feather_zero (c : RGBColor) (t : ℕ) (p : Pixel) :
    classifyPixelSingle c t 0 p = classifyPixelPass ⟨c, t⟩ p := by
  unfold classifyPixelSingle classifyPixelPass
  dsimp only
  by_cases h0 : p.a = 0
  · by_cases hd : distSq p.color c ≤ t ^ 2
    · rw [if_pos hd, if_pos h0, pixel_set_alpha_self h0]
    · rw [if_neg hd, if_pos h0, if_neg (by simp)]
  · by_cases hd : distSq p.color c ≤ t ^ 2
    · rw [if_pos hd, if_neg h0, if_pos hd]
    · rw [if_neg hd, if_neg (by simp), if_neg h0, if_neg hd]

/-! ### Claims about the color classifier -/

/-- Claim C1, counterexample.  Two pixels with distances 1 and 2 to the
reference, both inside the feather band `(0, 10]`, come out with alphas 25
and 51: the alpha strictly increases with the distance, so it is not
non-increasing, and the ramp runs from faded at the threshold boundary to
opaque at `threshold + feather`, not the other way around. -/
theorem feather_ramp_claim_counterexample :
    0 ^ 2 < distSq (Pixel.color ⟨1, 0, 0, 255⟩) ⟨0, 0, 0⟩
    ∧ distSq (Pixel.color ⟨1, 0, 0, 255⟩) ⟨0, 0, 0⟩ ≤ distSq (Pixel.color ⟨2, 0, 0, 255⟩) ⟨0, 0, 0⟩
    ∧ distSq (Pixel.color ⟨2, 0, 0, 255⟩) ⟨0, 0, 0⟩ ≤ (0 + 10) ^ 2
    ∧ (classifyPixelSingle ⟨0, 0, 0⟩ 0 10 ⟨1, 0, 0, 255⟩).a = 25
    ∧ (classifyPixelSingle ⟨0, 0, 0⟩ 0 10 ⟨2, 0, 0, 255⟩).a = 51
    ∧ ¬ (classifyPixelSingle ⟨0, 0, 0⟩ 0 10 ⟨2, 0, 0, 255⟩).a
        ≤ (classifyPixelSingle ⟨0, 0, 0⟩ 0 10 ⟨1, 0, 0, 255⟩).a := by
  decide

/-- Claim C1, amended: with feather > 0, for two pixels of equal original
alpha whose distances to the reference both lie in the feather band
`(threshold, threshold + feather]`, the resulting alpha is non-DEcreasing
as the distance increases — the linear ramp runs from fully faded at the
threshold boundary to the original alpha at `threshold + feather`. -/
theorem feather_ramp_monotone (target : RGBColor) (t f : ℕ) (p q : Pixel) (hf : 0 < f)
    (ha : p.a = q.a)
    (hp : t ^ 2 < distSq p.color target)
    (hpq : distSq p.color target ≤ distSq q.color target)
    (hq : distSq q.color target ≤ (t + f) ^ 2) :
    (classifyPixelSingle target t f p).a ≤ (classifyPixelSingle target t f q).a := by
  have h1 : ¬ distSq p.color target ≤ t ^ 2 := not_le.mpr hp
  have h2 : ¬ distSq q.color target ≤ t ^ 2 := not_le.mpr (lt_of_lt_of_le hp hpq)
  have hp2 : distSq p.color target ≤ (t + f) ^ 2 := le_trans hpq hq
  unfold classifyPixelSingle
  rw [if_neg h1, if_pos ⟨hf, hp2⟩, if_neg h2, if_pos ⟨hf, hq⟩]
  show featherAlpha p.a _ t f ≤ featherAlpha q.a _ t f
  rw [ha]
  exact featherAlpha_mono _ _ _ hpq

/-- Witness for the amended C1 at a concrete band. -/
theorem feather_ramp_monotone_witness :
    (classifyPixelSingle ⟨0, 0, 0⟩ 0 10 ⟨1, 0, 0, 255⟩).a
      ≤ (classifyPixelSingle ⟨0, 0, 0⟩ 0 10 ⟨2, 0, 0, 255⟩).a :=
  feather_ramp_monotone ⟨0, 0, 0⟩ 0 10 ⟨1, 0, 0, 255⟩ ⟨2, 0, 0, 255⟩ (by decide) (by decide)
    (by decide) (by decide) (by decide)

/-- Claim C2, counterexample.  At threshold 441 a black pixel against a
white reference keeps alpha 255: its distance is `sqrt 195075 ≈ 441.67`,
strictly above 441 (`441 ^ 2 = 194481 < 195075`), so "threshold 441
removes every pixel" fails. -/
theorem threshold_441_counterexample :
    ((removeBackgroundColorSingle ⟨255, 255, 255⟩ 441 0 [⟨0, 0, 0, 255⟩]).getD 0
        blankPixel).a = 255
    ∧ ¬ distSq (Pixel.color ⟨0, 0, 0, 255⟩) ⟨255, 255, 255⟩ ≤ 441 ^ 2 := by
  decide

/-- Claim C2, amended: in single-pass classification with feather 0 and an
8-bit reference color, threshold 0 ends with a transparent pixel exactly
for exact color matches (or pixels that were already transparent), and
threshold 442 — the least integer above the maximal distance
`sqrt (3 * 255 ^ 2)` — makes every 8-bit pixel transparent. -/
theorem threshold_edge_cases (c : RGBColor) (p : Pixel) (img : List Pixel)
    (hc : c.r ≤ 255 ∧ c.g ≤ 255 ∧ c.b ≤ 255) :
    ((classifyPixelSingle c 0 0 p).a = 0 ↔ (p.color = c ∨ p.a = 0))
    ∧ ((∀ q ∈ img, q.r ≤ 255 ∧ q.g ≤ 255 ∧ q.b ≤ 255) →
      ∀ q ∈ removeBackgroundColorSingle c 442 0 img, q.a = 0) := by
  constructor
  · unfold classifyPixelSingle
    by_cases hd : distSq p.color c ≤ 0 ^ 2
    · rw [if_pos hd]
      have : p.color = c := distSq_eq_zero_iff.mp (by omega)
      simp [this]
    · rw [if_neg hd, if_neg (by simp)]
      have : ¬ p.color = c := fun hcol => hd (by simp [hcol, distSq_eq_zero_iff.mpr rfl])
      simp [this]
  · intro himg q hq
    rw [removeBackgroundColorSingle, List.mem_map] at hq
    obtain ⟨p0, hp0, rfl⟩ := hq
    obtain ⟨hr, hg, hb⟩ := himg p0 hp0
    obtain ⟨hcr, hcg, hcb⟩ := hc
    have hd : distSq p0.color c ≤ 442 ^ 2 := by
      simp only [distSq, Pixel.color]
      have e1 : ((p0.r : ℤ) - c.r).natAbs ≤ 255 := by omega
      have e2 : ((p0.g : ℤ) - c.g).natAbs ≤ 255 := by omega
      have e3 : ((p0.b : ℤ) - c.b).natAbs ≤ 255 := by omega
      have q1 := Nat.pow_le_pow_left e1 2
      have q2 := Nat.pow_le_pow_left e2 2
      have q3 := Nat.pow_le_pow_left e3 2
      omega
    unfold classifyPixelSingle
    rw [if_pos hd]

/-- Witness for the amended C2: an exact-match check and a threshold-442
removal at concrete pixels. -/
theorem threshold_edge_cases_witness :
    ((classifyPixelSingle ⟨1, 2, 3⟩ 0 0 ⟨1, 2, 3, 200⟩).a = 0 ↔
      (Pixel.color ⟨1, 2, 3, 200⟩ = ⟨1, 2, 3⟩ ∨ (Pixel.a ⟨1, 2, 3, 200⟩) = 0))
    ∧ (Pixel.a ⟨9, 9, 9, 0⟩) = 0 :=
  ⟨(threshold_edge_cases ⟨1, 2, 3⟩ ⟨1, 2, 3, 200⟩ [⟨9, 9, 9, 200⟩] (by decide)).1,
   (threshold_edge_cases ⟨1, 2, 3⟩ ⟨1, 2, 3, 200⟩ [⟨9, 9, 9, 200⟩] (by decide)).2
     (by decide) ⟨9, 9, 9, 0⟩ (by decide)⟩

/-- Claim C3, confirmed: per pixel, alpha 0 within the threshold; the
exact floating-point feather formula
`floor(a * (distance - threshold) / feather)` inside the feather band when
feathering is on; untouched otherwise; and with feather 0 the output alpha
is 0 or the original — no intermediate values. -/
theorem single_pass_classification (c : RGBColor) (t f : ℕ) (p : Pixel) :
    (distSq p.color c ≤ t ^ 2 → (classifyPixelSingle c t f p).a = 0)
    ∧ (t ^ 2 < distSq p.color c → 0 < f → distSq p.color c ≤ (t + f) ^ 2 →
        (classifyPixelSingle c t f p).a =
          ⌊(p.a : ℝ) * ((Real.sqrt (distSq p.color c) - t) / f)⌋₊)
    ∧ (t ^ 2 < distSq p.color c → ¬ (0 < f ∧ distSq p.color c ≤ (t + f) ^ 2) →
        classifyPixelSingle c t f p = p)
    ∧ (f = 0 → (classifyPixelSingle c t f p).a = 0 ∨ classifyPixelSingle c t f p = p) := by
  refine ⟨?_, ?_, ?_, ?_⟩
  · intro hd
    unfold classifyPixelSingle
    rw [if_pos hd]
  · intro hd hf hband
    unfold classifyPixelSingle
    rw [if_neg (not_le.mpr hd), if_pos ⟨hf, hband⟩]
    exact featherAlpha_eq_floor _ _ _ _ hd.le
  · intro hd hband
    unfold classifyPixelSingle
    rw [if_neg (not_le.mpr hd), if_neg hband]
  · intro hf
    subst hf
    by_cases hd : distSq p.color c ≤ t ^ 2
    · left
      unfold classifyPixelSingle
      rw [if_pos hd]
    · right
      unfold classifyPixelSingle
      rw [if_neg hd, if_neg (by simp)]

/-- Witness for C3: all four branches exercised at concrete pixels. -/
theorem single_pass_classification_witness :
    ((classifyPixelSingle ⟨0, 0, 0⟩ 2 0 ⟨1, 0, 0, 77⟩).a = 0)
    ∧ ((classifyPixelSingle ⟨0, 0, 0⟩ 1 2 ⟨2, 0, 0, 128⟩).a =
        ⌊((Pixel.a ⟨2, 0, 0, 128⟩ : ℕ) : ℝ) *
          ((Real.sqrt (distSq (Pixel.color ⟨2, 0, 0, 128⟩) ⟨0, 0, 0⟩) - ((1 : ℕ) : ℝ)) /
            ((2 : ℕ) : ℝ))⌋₊)
    ∧ (classifyPixelSingle ⟨0, 0, 0⟩ 1 0 ⟨2, 0, 0, 128⟩ = ⟨2, 0, 0, 128⟩)
    ∧ ((classifyPixelSingle ⟨0, 0, 0⟩ 1 0 ⟨2, 0, 0, 128⟩).a = 0 ∨
        classifyPixelSingle ⟨0, 0, 0⟩ 1 0 ⟨2, 0, 0, 128⟩ = ⟨2, 0, 0, 128⟩) :=
  ⟨(single_pass_classification ⟨0, 0, 0⟩ 2 0 ⟨1, 0, 0, 77⟩).1 (by decide),
   (single_pass_classification ⟨0, 0, 0⟩ 1 2 ⟨2, 0, 0, 128⟩).2.1 (by decide) (by decide)
     (by decide),
   (single_pass_classification ⟨0, 0, 0⟩ 1 0 ⟨2, 0, 0, 128⟩).2.2.1 (by decide) (by decide),
   (single_pass_classification ⟨0, 0, 0⟩ 1 0 ⟨2, 0, 0, 128⟩).2.2.2 rfl⟩

/-- Claim C4, confirmed: in multi-pass classification a pixel that is
transparent at the start is untouched by the whole pass list, and a pixel
whose alpha is 0 after some passes keeps alpha 0 through every later
pass. -/
theorem multi_pass_transparent_stable (passes later : List ColorPass) (img : List Pixel)
    (i : ℕ) :
    ((img.getD i blankPixel).a = 0 →
      (removeBackgroundColorMulti passes img).getD i blankPixel = img.getD i blankPixel)
    ∧ (((removeBackgroundColorMulti passes img).getD i blankPixel).a = 0 →
      ((removeBackgroundColorMulti (passes ++ later) img).getD i blankPixel).a = 0) := by
  rw [removeBackgroundColorMulti_eq_map, removeBackgroundColorMulti_eq_map]
  by_cases hi : i < img.length
  · rw [getD_map_pixel _ _ _ hi, getD_map_pixel _ _ _ hi]
    constructor
    · intro h
      rw [multiPassPixel_of_alpha_zero _ h]
    · intro h
      rw [multiPassPixel_append, multiPassPixel_of_alpha_zero later h]
      exact h
  · push_neg at hi
    have h1 : (List.map (multiPassPixel passes) img).getD i blankPixel = blankPixel :=
      List.getD_eq_default _ _ (by simpa using hi)
    have h2 : (List.map (multiPassPixel (passes ++ later)) img).getD i blankPixel
        = blankPixel := List.getD_eq_default _ _ (by simpa using hi)
    have h3 : img.getD i blankPixel = blankPixel := List.getD_eq_default _ _ hi
    rw [h1, h2, h3]
    exact ⟨fun _ => rfl, fun h => h⟩

/-- Witness for C4: a transparent pixel survives a pass unchanged, and
stays transparent after an appended pass. -/
theorem multi_pass_transparent_stable_witness :
    ((removeBackgroundColorMulti [⟨⟨0, 0, 0⟩, 10⟩] [⟨7, 7, 7, 0⟩]).getD 0 blankPixel
      = ([(⟨7, 7, 7, 0⟩ : Pixel)]).getD 0 blankPixel)
    ∧ (((removeBackgroundColorMulti ([⟨⟨0, 0, 0⟩, 10⟩] ++ [⟨⟨5, 5, 5⟩, 3⟩])
        [⟨0, 0, 0, 255⟩]).getD 0 blankPixel).a = 0) :=
  ⟨(multi_pass_transparent_stable [⟨⟨0, 0, 0⟩, 10⟩] [] [⟨7, 7, 7, 0⟩] 0).1 (by decide),
   (multi_pass_transparent_stable [⟨⟨0, 0, 0⟩, 10⟩] [⟨⟨5, 5, 5⟩, 3⟩] [⟨0, 0, 0, 255⟩] 0).2
     (by decide)⟩

/-- Claim C7, counterexample.  A threshold of 500 is invalid (the valid
range is `[0, 441]`), yet the color path accepts it and performs the pixel
work: the run returns `ok` with the pixel actually modified, instead of
reporting a configuration error before pixel work begins. -/
theorem config_check_counterexample :
    removeBackgroundColorChecked (some ⟨0, 0, 0⟩) 500 0 [⟨0, 0, 0, 255⟩]
      = .ok [⟨0, 0, 0, 0⟩]
    ∧ 441 < 500 := by
  exact ⟨rfl, by omega⟩

/-- Claim C7, amended: a missing required reference color is detected and
reported before any pixel work begins and the run does not start, but the
threshold is never validated — single-pass processing proceeds with any
threshold value whatsoever. -/
theorem config_missing_color_rejected (t f : ℕ) (img : List Pixel) (c : RGBColor) :
    (removeBackgroundColorChecked none t f img =
      .error "Target color not specified. Use --target-color option.")
    ∧ (removeBackgroundColorChecked (some c) t f img =
      .ok (removeBackgroundColorSingle c t f img)) :=
  ⟨rfl, rfl⟩

/-- Claim C8, confirmed: when the OCR collaborator call throws, text
detection returns the empty region list (the catch branch at lines 497-500
of the source), and compositing an empty region list leaves the base
person mask exactly as it was — hybrid processing continues with a
person-only mask. -/
theorem ocr_failure_degrades_gracefully (e : String) (src : List Pixel) (w h pad : ℕ)
    (base : List Pixel) :
    detectTextRegions (.error e) = ([] : List Region)
    ∧ compositeRegions src w h pad (detectTextRegions (.error e)) base = base :=
  ⟨rfl, rfl⟩

/-! ### Claims about the mask compositor -/

/-- Writing a region preserves the raster's length. -/
theorem writeRegion_length (src : List Pixel) (w h pad : ℕ) (reg : Region)
    (base : List Pixel) : (writeRegion src w h pad reg base).length = base.length := by
  simp [writeRegion]

/-- Compositing preserves the raster's length. -/
theorem compositeRegions_length (src : List Pixel) (w h pad : ℕ) (regs : List Region)
    (base : List Pixel) : (compositeRegions src w h pad regs base).length = base.length := by
  induction regs generalizing base with
  | nil => rfl
  | cons r rs ih =>
    show (compositeRegions src w h pad rs (writeRegion src w h pad r base)).length = _
    rw [ih, writeRegion_length]

/-- Pointwise reading of one region write. -/
theorem writeRegion_getD (src : List Pixel) (w h pad : ℕ) (reg : Region)
    (base : List Pixel) (i : ℕ) (hi : i < base.length) :
    (writeRegion src w h pad reg base).getD i blankPixel =
      if inPaddedRegion w h pad reg (i % w) (i / w) then writtenPixel src i
      else base.getD i blankPixel := by
  rw [List.getD_eq_getElem _ _ (by rw [writeRegion_length]; exact hi),
    List.getD_eq_getElem _ _ hi]
  have h := List.get_mapIdx base
    (fun j p => if inPaddedRegion w h pad reg (j % w) (j / w) then writtenPixel src j else p)
    i hi
  rw [List.get_eq_getElem, List.get_eq_getElem] at h
  exact h

/-- Pointwise reading of the whole compositor: a cell covered by some
region holds the forced-opaque source pixel, every other cell keeps the
base value. -/
theorem compositeRegions_getD (src : List Pixel) (w h pad : ℕ) (regs : List Region)
    (base : List Pixel) (i : ℕ) (hi : i < base.length) :
    (compositeRegions src w h pad regs base).getD i blankPixel =
      if coveredBy w h pad regs (i % w) (i / w) then writtenPixel src i
      else base.getD i blankPixel := by
  induction regs generalizing base with
  | nil =>
    rw [if_neg]
    · rfl
    · rintro ⟨reg, hreg, -⟩
      exact absurd hreg (List.not_mem_nil reg)
  | cons r rs ih =>
    show (compositeRegions src w h pad rs (writeRegion src w h pad r base)).getD i blankPixel
      = _
    rw [ih _ (by rw [writeRegion_length]; exact hi), writeRegion_getD _ _ _ _ _ _ _ hi]
    by_cases hc : coveredBy w h pad rs (i % w) (i / w)
    · rw [if_pos hc, if_pos]
      obtain ⟨reg, hreg, hr⟩ := hc
      exact ⟨reg, List.mem_cons_of_mem r hreg, hr⟩
    · rw [if_neg hc]
      by_cases hr : inPaddedRegion w h pad r (i % w) (i / w)
      · rw [if_pos hr, if_pos ⟨r, List.mem_cons_self r rs, hr⟩]
      · rw [if_neg hr, if_neg]
        rintro ⟨reg, hreg, hregin⟩
        rcases List.mem_cons.mp hreg with rfl | hreg2
        · exact hr hregin
        · exact hc ⟨reg, hreg2, hregin⟩

/-- Two rasters agreeing in length and at every (defaulted) index are
equal. -/
theorem list_ext_getD {l1 l2 : List Pixel} (hlen : l1.length = l2.length)
    (h : ∀ i, l1.getD i blankPixel = l2.getD i blankPixel) : l1 = l2 := by
  apply List.ext_getElem hlen
  intro i h1 h2
  have hh := h i
  rwa [List.getD_eq_getElem _ _ h1, List.getD_eq_getElem _ _ h2] at hh

/-- Claim C6, confirmed: mask compositing is idempotent — applying a
region list to its own output changes nothing — and order-independent —
any permutation of the region list yields the same raster. -/
theorem composite_idempotent_order_independent (src : List Pixel) (w h pad : ℕ)
    (regions regions' : List Region) (base : List Pixel) :
    (compositeRegions src w h pad regions (compositeRegions src w h pad regions base)
      = compositeRegions src w h pad regions base)
    ∧ (regions.Perm regions' →
      compositeRegions src w h pad regions base
        = compositeRegions src w h pad regions' base) := by
  constructor
  · apply list_ext_getD
    · simp [compositeRegions_length]
    · intro i
      by_cases hi : i < base.length
      · have hi2 : i < (compositeRegions src w h pad regions base).length := by
          rw [compositeRegions_length]
          exact hi
        rw [compositeRegions_getD _ _ _ _ _ _ _ hi2, compositeRegions_getD _ _ _ _ _ _ _ hi]
        by_cases hc : coveredBy w h pad regions (i % w) (i / w)
        · rw [if_pos hc, if_pos hc]
        · rw [if_neg hc, if_neg hc]
      · push_neg at hi
        have e1 : (compositeRegions src w h pad regions
            (compositeRegions src w h pad regions base)).length ≤ i := by
          rw [compositeRegions_length, compositeRegions_length]
          exact hi
        have e2 : (compositeRegions src w h pad regions base).length ≤ i := by
          rw [compositeRegions_length]
          exact hi
        rw [List.getD_eq_default _ _ e1, List.getD_eq_default _ _ e2]
  · intro hperm
    apply list_ext_getD
    · simp [compositeRegions_length]
    · intro i
      by_cases hi : i < base.length
      · rw [compositeRegions_getD _ _ _ _ _ _ _ hi, compositeRegions_getD _ _ _ _ _ _ _ hi]
        have hcov : coveredBy w h pad regions (i % w) (i / w)
            ↔ coveredBy w h pad regions' (i % w) (i / w) := by
          unfold coveredBy
          constructor
          · rintro ⟨reg, hreg, hr⟩
            exact ⟨reg, hperm.mem_iff.mp hreg, hr⟩
          · rintro ⟨reg, hreg, hr⟩
            exact ⟨reg, hperm.mem_iff.mpr hreg, hr⟩
        by_cases hc : coveredBy w h pad regions (i % w) (i / w)
        · rw [if_pos hc, if_pos (hcov.mp hc)]
        · rw [if_neg hc, if_neg (fun hc2 => hc (hcov.mpr hc2))]
      · push_neg at hi
        have e1 : (compositeRegions src w h pad regions base).length ≤ i := by
          rw [compositeRegions_length]
          exact hi
        have e2 : (compositeRegions src w h pad regions' base).length ≤ i := by
          rw [compositeRegions_length]
          exact hi
        rw [List.getD_eq_default _ _ e1, List.getD_eq_default _ _ e2]

/-- Witness for C6: a concrete two-region compositing, re-applied and
permuted, at a concrete 2x2 raster. -/
theorem composite_idempotent_order_independent_witness :
    (compositeRegions [⟨1, 2, 3, 9⟩, ⟨4, 5, 6, 9⟩, ⟨7, 8, 9, 9⟩, ⟨3, 3, 3, 9⟩] 2 2 0
        [⟨0, 0, 1, 1, none, none, none⟩, ⟨1, 1, 1, 1, none, none, none⟩]
        (compositeRegions [⟨1, 2, 3, 9⟩, ⟨4, 5, 6, 9⟩, ⟨7, 8, 9, 9⟩, ⟨3, 3, 3, 9⟩] 2 2 0
          [⟨0, 0, 1, 1, none, none, none⟩, ⟨1, 1, 1, 1, none, none, none⟩]
          [⟨9, 9, 9, 0⟩, ⟨9, 9, 9, 0⟩, ⟨9, 9, 9, 0⟩, ⟨9, 9, 9, 0⟩])
      = compositeRegions [⟨1, 2, 3, 9⟩, ⟨4, 5, 6, 9⟩, ⟨7, 8, 9, 9⟩, ⟨3, 3, 3, 9⟩] 2 2 0
        [⟨0, 0, 1, 1, none, none, none⟩, ⟨1, 1, 1, 1, none, none, none⟩]
        [⟨9, 9, 9, 0⟩, ⟨9, 9, 9, 0⟩, ⟨9, 9, 9, 0⟩, ⟨9, 9, 9, 0⟩])
    ∧ (compositeRegions [⟨1, 2, 3, 9⟩, ⟨4, 5, 6, 9⟩, ⟨7, 8, 9, 9⟩, ⟨3, 3, 3, 9⟩] 2 2 0
        [⟨0, 0, 1, 1, none, none, none⟩, ⟨1, 1, 1, 1, none, none, none⟩]
        [⟨9, 9, 9, 0⟩, ⟨9, 9, 9, 0⟩, ⟨9, 9, 9, 0⟩, ⟨9, 9, 9, 0⟩]
      = compositeRegions [⟨1, 2, 3, 9⟩, ⟨4, 5, 6, 9⟩, ⟨7, 8, 9, 9⟩, ⟨3, 3, 3, 9⟩] 2 2 0
        [⟨1, 1, 1, 1, none, none, none⟩, ⟨0, 0, 1, 1, none, none, none⟩]
        [⟨9, 9, 9, 0⟩, ⟨9, 9, 9, 0⟩, ⟨9, 9, 9, 0⟩, ⟨9, 9, 9, 0⟩]) :=
  ⟨(composite_idempotent_order_independent
      [⟨1, 2, 3, 9⟩, ⟨4, 5, 6, 9⟩, ⟨7, 8, 9, 9⟩, ⟨3, 3, 3, 9⟩] 2 2 0
      [⟨0, 0, 1, 1, none, none, none⟩, ⟨1, 1, 1, 1, none, none, none⟩]
      [⟨1, 1, 1, 1, none, none, none⟩, ⟨0, 0, 1, 1, none, none, none⟩]
      [⟨9, 9, 9, 0⟩, ⟨9, 9, 9, 0⟩, ⟨9, 9, 9, 0⟩, ⟨9, 9, 9, 0⟩]).1,
   (composite_idempotent_order_independent
      [⟨1, 2, 3, 9⟩, ⟨4, 5, 6, 9⟩, ⟨7, 8, 9, 9⟩, ⟨3, 3, 3, 9⟩] 2 2 0
      [⟨0, 0, 1, 1, none, none, none⟩, ⟨1, 1, 1, 1, none, none, none⟩]
      [⟨1, 1, 1, 1, none, none, none⟩, ⟨0, 0, 1, 1, none, none, none⟩]
      [⟨9, 9, 9, 0⟩, ⟨9, 9, 9, 0⟩, ⟨9, 9, 9, 0⟩, ⟨9, 9, 9, 0⟩]).2 (by decide)⟩

/-- Claim C9, confirmed: every cell visited by the region-writing loops
lies inside the clipped rectangle, hence strictly inside the raster
bounds; its row-major pixel index is in range as well. -/
theorem padded_region_in_bounds (w h pad : ℕ) (reg : Region) (px py : ℕ)
    (hin : inPaddedRegion w h pad reg px py) :
    px < w ∧ py < h ∧ py * w + px < w * h := by
  obtain ⟨-, h1, -, h2⟩ := hin
  have hw : px < w := lt_of_lt_of_le h2 (min_le_left _ _)
  have hh : py < h := lt_of_lt_of_le h1 (min_le_left _ _)
  refine ⟨hw, hh, ?_⟩
  calc py * w + px < py * w + w := by omega
  _ = (py + 1) * w := by ring
  _ ≤ h * w := Nat.mul_le_mul_right _ hh
  _ = w * h := Nat.mul_comm _ _

/-- Witness for C9 at a concrete padded region inside a 4x4 raster. -/
theorem padded_region_in_bounds_witness :
    (2 : ℕ) < 4 ∧ (2 : ℕ) < 4 ∧ (2 : ℕ) * 4 + 2 < 4 * 4 :=
  padded_region_in_bounds 4 4 1 ⟨1, 1, 2, 2, none, none, none⟩ 2 2 (by decide)

/-- Claim C10, confirmed: with feather 0, single-pass classification with
target `c` and threshold `t` produces exactly the raster of multi-pass
classification with the one-element pass list `[{color: c, threshold: t}]`,
although only the latter skips already-transparent pixels. -/
theorem single_pass_refines_one_pass_multi (c : RGBColor) (t : ℕ) (img : List Pixel) :
    removeBackgroundColorSingle c t 0 img = removeBackgroundColorMulti [⟨c, t⟩] img := by
  rw [removeBackgroundColorMulti_eq_map]
  unfold removeBackgroundColorSingle
  exact List.map_congr_left fun p _ => classifyPixelSingle_feather_zero c t p

/-! ### Connected components: adjacency and reachability -/

/-- Membership in the neighbor list: in bounds and offset by a direction. -/
theorem mem_neighborCells_iff {m : BoolMask} {x y : ℕ} {d : Cell} :
    d ∈ neighborCells m x y ↔
      d.1 < m.width ∧ d.2 < m.height ∧ ((d.1 : ℤ) - x, (d.2 : ℤ) - y) ∈ directions := by
  obtain ⟨a, b⟩ := d
  constructor
  · intro hd
    simp only [neighborCells, List.mem_filterMap] at hd
    obtain ⟨dir, hdir, hite⟩ := hd
    by_cases hb : 0 ≤ (x : ℤ) + dir.1 ∧ (x : ℤ) + dir.1 < (m.width : ℤ) ∧
        0 ≤ (y : ℤ) + dir.2 ∧ (y : ℤ) + dir.2 < (m.height : ℤ)
    · rw [if_pos hb, Option.some_inj] at hite
      obtain ⟨h1, h2⟩ := Prod.mk.injEq .. ▸ hite
      refine ⟨by omega, by omega, ?_⟩
      have e1 : ((a : ℤ) - x) = dir.1 := by omega
      have e2 : ((b : ℤ) - y) = dir.2 := by omega
      rw [e1, e2]
      exact hdir
    · rw [if_neg hb] at hite
      exact absurd hite (Option.noConfusion)
  · rintro ⟨h1, h2, h3⟩
    simp only [neighborCells, List.mem_filterMap]
    refine ⟨((a : ℤ) - x, (b : ℤ) - y), h3, ?_⟩
    rw [if_pos (by constructor <;> omega)]
    rw [Option.some_inj, Prod.mk.injEq]
    constructor <;> omega

/-- The neighbor list never repeats a cell. -/
theorem neighborCells_nodup (m : BoolMask) (x y : ℕ) : (neighborCells m x y).Nodup := by
  apply List.Nodup.filterMap
  · intro d1 d2 c hc1 hc2
    by_cases hb1 : 0 ≤ (x : ℤ) + d1.1 ∧ (x : ℤ) + d1.1 < (m.width : ℤ) ∧
        0 ≤ (y : ℤ) + d1.2 ∧ (y : ℤ) + d1.2 < (m.height : ℤ)
    · rw [if_pos hb1, Option.mem_def, Option.some_inj] at hc1
      by_cases hb2 : 0 ≤ (x : ℤ) + d2.1 ∧ (x : ℤ) + d2.1 < (m.width : ℤ) ∧
          0 ≤ (y : ℤ) + d2.2 ∧ (y : ℤ) + d2.2 < (m.height : ℤ)
      · rw [if_pos hb2, Option.mem_def, Option.some_inj] at hc2
        obtain ⟨a1, a2⟩ := Prod.mk.injEq .. ▸ (hc1.trans hc2.symm)
        obtain ⟨e1, e2⟩ := d1
        obtain ⟨f1, f2⟩ := d2
        rw [Prod.mk.injEq]
        constructor <;> omega
      · rw [if_neg hb2] at hc2
        exact absurd hc2 (by simp)
    · rw [if_neg hb1] at hc1
      exact absurd hc1 (by simp)
  · decide

/-- 8-adjacency is symmetric (the direction list is closed under
negation). -/
theorem adjacent_symm {m : BoolMask} {c d : Cell} (h : adjacent m c d) : adjacent m d c := by
  obtain ⟨h1, h2, h3, h4, h5, h6, h7⟩ := h
  refine ⟨h2, h1, h5, h6, h3, h4, ?_⟩
  simp only [directions, List.mem_cons, List.not_mem_nil, or_false, Prod.mk.injEq] at h7 ⊢
  rcases h7 with ⟨e1, e2⟩ | ⟨e1, e2⟩ | ⟨e1, e2⟩ | ⟨e1, e2⟩ |
    ⟨e1, e2⟩ | ⟨e1, e2⟩ | ⟨e1, e2⟩ | ⟨e1, e2⟩ <;> omega

/-- An adjacent target is in the neighbor list and true. -/
theorem adjacent_mem_neighborCells {m : BoolMask} {c d : Cell} (h : adjacent m c d) :
    d ∈ neighborCells m c.1 c.2 ∧ m.cell d.1 d.2 = true := by
  obtain ⟨h1, h2, h3, h4, h5, h6, h7⟩ := h
  exact ⟨mem_neighborCells_iff.mpr ⟨h5, h6, h7⟩, h2⟩

/-- A true neighbor of a true in-bounds cell is adjacent to it. -/
theorem adjacent_of_mem_neighborCells {m : BoolMask} {c d : Cell}
    (hct : m.cell c.1 c.2 = true) (hcw : c.1 < m.width) (hch : c.2 < m.height)
    (hd : d ∈ neighborCells m c.1 c.2) (hdt : m.cell d.1 d.2 = true) :
    adjacent m c d := by
  obtain ⟨h1, h2, h3⟩ := mem_neighborCells_iff.mp hd
  exact ⟨hct, hdt, hcw, hch, h1, h2, h3⟩

/-- Dropping the avoidance constraint. -/
theorem reachAvoid_mono {m : BoolMask} {B B' : Finset Cell} (hBB : B ⊆ B') {v w : Cell}
    (h : reachAvoid m B' v w) : reachAvoid m B v w :=
  Relation.ReflTransGen.mono (fun _ _ hp => ⟨hp.1, fun hb => hp.2 (hBB hb)⟩) h

/-- An avoiding path is in particular a connecting path. -/
theorem reachAvoid_to_connected {m : BoolMask} {B : Finset Cell} {v w : Cell}
    (h : reachAvoid m B v w) : connectedCells m v w :=
  Relation.ReflTransGen.mono (fun _ _ hp => hp.1) h

/-- A path avoiding `B` either also avoids `N`, or passes through a first
cell of `N` from which the rest of the path avoids `B ∪ N`. -/
theorem reachAvoid_split {m : BoolMask} {B : Finset Cell} {v w : Cell}
    (h : reachAvoid m B v w) (N : Finset Cell) :
    reachAvoid m (B ∪ N) v w ∨ ∃ x ∈ N, reachAvoid m (B ∪ N) x w := by
  induction h with
  | refl => exact .inl .refl
  | tail hp he ih =>
    rename_i u w'
    by_cases hw : w' ∈ N
    · exact .inr ⟨w', hw, .refl⟩
    · have hstep : adjacent m u w' ∧ w' ∉ B ∪ N := by
        refine ⟨he.1, ?_⟩
        rw [Finset.mem_union]
        rintro (hb | hn)
        · exact he.2 hb
        · exact hw hn
      rcases ih with h1 | ⟨x, hx, h2⟩
      · exact .inl (h1.tail hstep)
      · exact .inr ⟨x, hx, h2.tail hstep⟩

/-- A connecting path from a cell outside an adjacency-closed blocked set
never enters the blocked set, and in fact avoids it throughout. -/
theorem connected_avoids_closed {m : BoolMask} {B : Finset Cell}
    (hcl : ∀ u ∈ B, ∀ d, adjacent m u d → d ∈ B) {v w : Cell} (hv : v ∉ B)
    (h : connectedCells m v w) : w ∉ B ∧ reachAvoid m B v w := by
  induction h with
  | refl => exact ⟨hv, .refl⟩
  | tail hp he ih =>
    rename_i u w'
    obtain ⟨hu, hru⟩ := ih
    have hw : w' ∉ B := fun hwB => hu (hcl w' hwB u (adjacent_symm he))
    exact ⟨hw, hru.tail ⟨he, hw⟩⟩

/-- Over an adjacency-closed blocked set not containing the start,
connectivity from the start coincides with reachability avoiding the
blocked set and the start itself. -/
theorem connected_iff_reachAvoid_insert {m : BoolMask} {B : Finset Cell}
    (hcl : ∀ u ∈ B, ∀ d, adjacent m u d → d ∈ B) {v w : Cell} (hv : v ∉ B) :
    connectedCells m v w ↔ reachAvoid m (insert v B) v w := by
  constructor
  · intro h
    obtain ⟨-, hr⟩ := connected_avoids_closed hcl hv h
    rcases reachAvoid_split hr {v} with h1 | ⟨x, hx, h2⟩
    · rw [Finset.union_comm, ← Finset.insert_eq] at h1
      exact h1
    · rw [Finset.mem_singleton] at hx
      subst hx
      rw [Finset.union_comm, ← Finset.insert_eq] at h2
      exact h2
  · exact reachAvoid_to_connected

/-! ### Connected components: the closure computation -/

/-- Expansion only grows a cell set. -/
theorem subset_expand (m : BoolMask) (s : Finset Cell) : s ⊆ expand m s :=
  Finset.subset_union_left

/-- The seed stays inside every expansion round. -/
theorem seed_subset_iterate (m : BoolMask) (s : Finset Cell) (n : ℕ) :
    s ⊆ (expand m)^[n] s := by
  induction n with
  | zero => simp
  | succ n ih =>
    rw [Function.iterate_succ_apply']
    exact ih.trans (subset_expand m _)

/-- Expansion stays inside any superset of the grid. -/
theorem iterate_expand_subset {m : BoolMask} {s U : Finset Cell} (hU : allCells m ⊆ U)
    (hs : s ⊆ U) (n : ℕ) : (expand m)^[n] s ⊆ U := by
  induction n with
  | zero => exact hs
  | succ n ih =>
    rw [Function.iterate_succ_apply']
    exact Finset.union_subset ih ((Finset.filter_subset _ _).trans hU)

/-- Once a round is a fixed point, all later rounds agree with it. -/
theorem iterate_fixed_from {m : BoolMask} {s : Finset Cell} {j : ℕ}
    (hfix : expand m ((expand m)^[j] s) = (expand m)^[j] s) :
    ∀ k, j ≤ k → (expand m)^[k] s = (expand m)^[j] s := by
  intro k hk
  induction k with
  | zero =>
    have hj0 : j = 0 := by omega
    subst hj0
    rfl
  | succ k ih =>
    by_cases hj : j = k + 1
    · subst hj
      rfl
    · have hjk : j ≤ k := by omega
      rw [Function.iterate_succ_apply', ih hjk, hfix]

/-- For an in-bounds seed, `width * height` expansion rounds reach the
fixed point: each non-fixed round strictly grows the set, and all rounds
live inside the grid. -/
theorem expand_fixpoint (m : BoolMask) (c : Cell) (hc : c ∈ allCells m) :
    expand m (componentFin m c) = componentFin m c := by
  unfold componentFin
  have hcard : (allCells m).card = m.width * m.height := by
    simp [allCells]
  have hsub : ∀ k, (expand m)^[k] {c} ⊆ allCells m :=
    fun k => iterate_expand_subset le_rfl (Finset.singleton_subset_iff.mpr hc) k
  by_cases hfix : ∃ j, j ≤ m.width * m.height ∧
      expand m ((expand m)^[j] {c}) = (expand m)^[j] {c}
  · obtain ⟨j, hj, hfixj⟩ := hfix
    rw [iterate_fixed_from hfixj _ hj]
    exact hfixj
  · exfalso
    push_neg at hfix
    have hgrow : ∀ j, j ≤ m.width * m.height + 1 → j + 1 ≤ ((expand m)^[j] {c}).card := by
      intro j
      induction j with
      | zero => simp
      | succ j ih =>
        intro hj
        have hne := hfix j (by omega)
        have hss : (expand m)^[j] {c} ⊂ (expand m)^[j + 1] {c} := by
          rw [Function.iterate_succ_apply']
          exact (subset_expand m _).ssubset_of_ne (Ne.symm hne)
        have := Finset.card_lt_card hss
        have := ih (by omega)
        omega
    have h1 := hgrow (m.width * m.height + 1) le_rfl
    have h2 := Finset.card_le_card (hsub (m.width * m.height + 1))
    omega

/-- Every cell of the computed component is connected to the seed. -/
theorem componentFin_subset_connected (m : BoolMask) (c : Cell) :
    ∀ d ∈ componentFin m c, connectedCells m c d := by
  unfold componentFin
  generalize m.width * m.height = n
  induction n with
  | zero =>
    intro d hd
    simp only [Function.iterate_zero_apply, Finset.mem_singleton] at hd
    subst hd
    exact .refl
  | succ n ih =>
    intro d hd
    rw [Function.iterate_succ_apply'] at hd
    rcases Finset.mem_union.mp hd with h1 | h2
    · exact ih d h1
    · rw [Finset.mem_filter] at h2
      obtain ⟨-, u, hu, hadj⟩ := h2
      exact (ih u hu).tail hadj

/-- The computed component of an in-bounds seed is exactly its
connectivity class. -/
theorem mem_componentFin_iff {m : BoolMask} {c : Cell} (hc1 : c.1 < m.width)
    (hc2 : c.2 < m.height) {d : Cell} :
    d ∈ componentFin m c ↔ connectedCells m c d := by
  constructor
  · exact componentFin_subset_connected m c d
  · intro h
    have hcall : c ∈ allCells m := by
      rw [allCells, Finset.mem_product]
      exact ⟨Finset.mem_range.mpr hc1, Finset.mem_range.mpr hc2⟩
    induction h with
    | refl => exact seed_subset_iterate m {c} _ (Finset.mem_singleton_self c)
    | tail hp he ih =>
      rename_i u w
      rw [← expand_fixpoint m c hcall]
      apply Finset.mem_union_right
      rw [Finset.mem_filter]
      refine ⟨?_, u, ih, he⟩
      rw [allCells, Finset.mem_product]
      exact ⟨Finset.mem_range.mpr he.2.2.2.2.1, Finset.mem_range.mpr he.2.2.2.2.2.1⟩

/-- The seed belongs to its own component. -/
theorem mem_componentFin_self (m : BoolMask) (c : Cell) : c ∈ componentFin m c :=
  seed_subset_iterate m {c} _ (Finset.mem_singleton_self c)

/-- A component only contains the seed and in-bounds cells. -/
theorem componentFin_subset_insert (m : BoolMask) (c : Cell) :
    componentFin m c ⊆ insert c (allCells m) :=
  iterate_expand_subset (Finset.subset_insert c _) (by simp) _

/-- Components of in-bounds cells are equivalence classes: any member
spans the same component. -/
theorem componentFin_eq_of_mem {m : BoolMask} {c d : Cell} (hc1 : c.1 < m.width)
    (hc2 : c.2 < m.height) (hd1 : d.1 < m.width) (hd2 : d.2 < m.height)
    (hmem : d ∈ componentFin m c) : componentFin m d = componentFin m c := by
  have hcd : connectedCells m c d := (mem_componentFin_iff hc1 hc2).mp hmem
  have hdc : connectedCells m d c :=
    Relation.ReflTransGen.symmetric (fun _ _ h => adjacent_symm h) hcd
  ext w
  rw [mem_componentFin_iff hd1 hd2, mem_componentFin_iff hc1 hc2]
  exact ⟨fun h => hcd.trans h, fun h => hdc.trans h⟩

/-- Components of in-bounds seeds are closed under adjacency. -/
theorem componentFin_closed {m : BoolMask} {c : Cell} (hc1 : c.1 < m.width)
    (hc2 : c.2 < m.height) {u d : Cell} (hu : u ∈ componentFin m c)
    (hadj : adjacent m u d) : d ∈ componentFin m c := by
  rw [mem_componentFin_iff hc1 hc2] at hu ⊢
  exact hu.tail hadj

/-! ### The breadth-first traversal collects exactly one component -/

/-- One BFS step preserves the traversal set: marking the unvisited true
neighbors of the popped cell and moving them to the queue reaches exactly
the same cells. -/
theorem traversal_step (m : BoolMask) (V : Finset Cell) (c : Cell) (rest : List Cell)
    (hct : m.cell c.1 c.2 = true) (hcw : c.1 < m.width) (hch : c.2 < m.height)
    (hcv : c ∈ V) (newC : List Cell)
    (hchar : ∀ d, d ∈ newC ↔
      (d ∈ neighborCells m c.1 c.2 ∧ d ∉ V ∧ m.cell d.1 d.2 = true)) :
    ∀ w, (w ∈ V ∪ newC.toFinset ∨ ∃ v ∈ rest ++ newC, reachAvoid m (V ∪ newC.toFinset) v w)
      ↔ (w ∈ V ∨ ∃ v ∈ c :: rest, reachAvoid m V v w) := by
  intro w
  constructor
  · rintro (hw | ⟨v, hv, hrv⟩)
    · rcases Finset.mem_union.mp hw with h | h
      · exact .inl h
      · rw [List.mem_toFinset] at h
        obtain ⟨hn, hnv, hnt⟩ := (hchar w).mp h
        exact .inr ⟨c, List.mem_cons_self c rest, Relation.ReflTransGen.single
          ⟨adjacent_of_mem_neighborCells hct hcw hch hn hnt, hnv⟩⟩
    · rcases List.mem_append.mp hv with h | h
      · exact .inr ⟨v, List.mem_cons_of_mem c h,
          reachAvoid_mono Finset.subset_union_left hrv⟩
      · obtain ⟨hn, hnv, hnt⟩ := (hchar v).mp h
        exact .inr ⟨c, List.mem_cons_self c rest,
          (Relation.ReflTransGen.single
            ⟨adjacent_of_mem_neighborCells hct hcw hch hn hnt, hnv⟩).trans
            (reachAvoid_mono Finset.subset_union_left hrv)⟩
  · rintro (hw | ⟨v, hv, hrv⟩)
    · exact .inl (Finset.mem_union_left _ hw)
    · rcases List.mem_cons.mp hv with rfl | hv2
      · rcases Relation.ReflTransGen.cases_head hrv with rfl | ⟨x, ⟨hadj, hxV⟩, hxw⟩
        · exact .inl (Finset.mem_union_left _ hcv)
        · have hxN : x ∈ newC := (hchar x).mpr
            ⟨(adjacent_mem_neighborCells hadj).1, hxV, (adjacent_mem_neighborCells hadj).2⟩
          rcases reachAvoid_split hxw newC.toFinset with h1 | ⟨z, hz, h2⟩
          · exact .inr ⟨x, List.mem_append_right _ hxN, h1⟩
          · exact .inr ⟨z, List.mem_append_right _ (List.mem_toFinset.mp hz), h2⟩
      · rcases reachAvoid_split hrv newC.toFinset with h1 | ⟨z, hz, h2⟩
        · exact .inr ⟨v, List.mem_append_left _ hv2, h1⟩
        · exact .inr ⟨z, List.mem_append_right _ (List.mem_toFinset.mp hz), h2⟩

/-- Full specification of the traversal loop: starting from a queue of
visited, true, in-bounds cells, the final visited set adds exactly the
cells reachable from the queue while avoiding the current visited set, and
the collected points are precisely the seeds plus the newly visited cells,
without duplicates. -/
theorem bfsAux_spec (m : BoolMask) (queue : List Cell) (visited : Finset Cell)
    (points : List Cell) :
    (∀ v ∈ queue, v ∈ visited) →
    (∀ v ∈ points, v ∈ visited) →
    (points ++ queue).Nodup →
    (∀ v ∈ queue, m.cell v.1 v.2 = true ∧ v.1 < m.width ∧ v.2 < m.height) →
    visited ⊆ (bfsAux m queue visited points).1
    ∧ (∀ w, w ∈ (bfsAux m queue visited points).1 ↔
        w ∈ visited ∨ ∃ v ∈ queue, reachAvoid m visited v w)
    ∧ (bfsAux m queue visited points).2.toFinset
        = points.toFinset ∪ queue.toFinset ∪ ((bfsAux m queue visited points).1 \ visited)
    ∧ (bfsAux m queue visited points).2.Nodup := by
  induction queue, visited, points using bfsAux.induct m with
  | case1 visited points =>
    intro hq hp hnd hqt
    rw [bfsAux]
    refine ⟨subset_rfl, ?_, ?_, ?_⟩
    · intro w
      simp
    · simp
    · simpa using hnd
  | case2 visited points c rest newC ih =>
    intro hq hp hnd hqt
    have hnewC : newC = List.filter (fun d => decide (d ∉ visited) && m.cell d.1 d.2)
      (neighborCells m c.1 c.2) := rfl
    have hchar : ∀ d, d ∈ newC ↔
        (d ∈ neighborCells m c.1 c.2 ∧ d ∉ visited ∧ m.cell d.1 d.2 = true) := by
      intro d
      rw [hnewC, List.mem_filter]
      simp [Bool.and_eq_true, decide_eq_true_eq, and_assoc]
    have hcv : c ∈ visited := hq c (List.mem_cons_self c rest)
    obtain ⟨hct, hcw, hch⟩ := hqt c (List.mem_cons_self c rest)
    have hnodupNew : newC.Nodup := by
      rw [hnewC]
      exact (neighborCells_nodup m c.1 c.2).filter _
    have hdisj : ∀ x ∈ newC, x ∉ visited := fun x hx => ((hchar x).mp hx).2.1
    have hnewTrue : ∀ x ∈ newC, m.cell x.1 x.2 = true ∧ x.1 < m.width ∧ x.2 < m.height := by
      intro x hx
      obtain ⟨hn, -, ht⟩ := (hchar x).mp hx
      obtain ⟨hb1, hb2, -⟩ := mem_neighborCells_iff.mp hn
      exact ⟨ht, hb1, hb2⟩
    have H1 : ∀ v ∈ rest ++ newC, v ∈ visited ∪ newC.toFinset := by
      intro v hv
      rcases List.mem_append.mp hv with h | h
      · exact Finset.mem_union_left _ (hq v (List.mem_cons_of_mem c h))
      · exact Finset.mem_union_right _ (List.mem_toFinset.mpr h)
    have H2 : ∀ v ∈ points ++ [c], v ∈ visited ∪ newC.toFinset := by
      intro v hv
      rcases List.mem_append.mp hv with h | h
      · exact Finset.mem_union_left _ (hp v h)
      · rw [List.mem_singleton] at h
        subst h
        exact Finset.mem_union_left _ hcv
    have H3 : ((points ++ [c]) ++ (rest ++ newC)).Nodup := by
      have e : (points ++ [c]) ++ (rest ++ newC) = (points ++ c :: rest) ++ newC := by
        simp
      rw [e, List.nodup_append]
      refine ⟨hnd, hnodupNew, ?_⟩
      intro x hx1 hx2
      have hxv : x ∈ visited := by
        rcases List.mem_append.mp hx1 with h | h
        · exact hp x h
        · exact hq x h
      exact hdisj x hx2 hxv
    have H4 : ∀ v ∈ rest ++ newC,
        m.cell v.1 v.2 = true ∧ v.1 < m.width ∧ v.2 < m.height := by
      intro v hv
      rcases List.mem_append.mp hv with h | h
      · exact hqt v (List.mem_cons_of_mem c h)
      · exact hnewTrue v h
    obtain ⟨P1, P2, P3, P4⟩ := ih H1 H2 H3 H4
    have heq : bfsAux m (c :: rest) visited points
        = bfsAux m (rest ++ newC) (visited ∪ newC.toFinset) (points ++ [c]) := by
      rw [bfsAux]
    rw [heq]
    clear_value newC
    clear hnewC heq
    refine ⟨Finset.Subset.trans Finset.subset_union_left P1, ?_, ?_, P4⟩
    · intro w
      rw [P2 w]
      exact traversal_step m visited c rest hct hcw hch hcv newC hchar w
    · rw [P3]
      have f1 : ∀ x, x ∈ newC →
          x ∈ (bfsAux m (rest ++ newC) (visited ∪ newC.toFinset) (points ++ [c])).1 :=
        fun x h => P1 (Finset.mem_union_right _ (List.mem_toFinset.mpr h))
      generalize hR : (bfsAux m (rest ++ newC) (visited ∪ newC.toFinset)
        (points ++ [c])).1 = RES at f1 ⊢
      ext x
      simp only [Finset.mem_union, List.toFinset_append, List.mem_toFinset,
        Finset.mem_sdiff, List.toFinset_cons, Finset.mem_insert, List.mem_singleton,
        List.toFinset_nil, Finset.mem_singleton, List.mem_cons]
      have f2 := f1 x
      have f3 := hdisj x
      clear f1 hdisj P1 P2 P3 P4 ih hq hp hnd hqt hchar H1 H2 H3 H4 hnewTrue hnodupNew
      by_cases hxn : x ∈ newC <;> by_cases hxv : x ∈ visited <;> tauto

/-- One component search from an unvisited true cell over an
adjacency-closed visited set: the collected points are exactly the cell's
connected component (without duplicates), and the visited set grows by
exactly that component. -/
theorem bfs_component (m : BoolMask) (V0 : Finset Cell) (start : Cell)
    (hst : m.cell start.1 start.2 = true) (hsw : start.1 < m.width)
    (hsh : start.2 < m.height) (hsV : start ∉ V0)
    (hclosed : ∀ u ∈ V0, ∀ d, adjacent m u d → d ∈ V0) :
    (bfs m start V0).2.Nodup
    ∧ (bfs m start V0).2.toFinset = componentFin m start
    ∧ (bfs m start V0).1 = V0 ∪ componentFin m start := by
  obtain ⟨P1, P2, P3, P4⟩ := bfsAux_spec m [start] (insert start V0) []
    (by
      intro v hv
      rw [List.mem_singleton] at hv
      subst hv
      exact Finset.mem_insert_self _ _)
    (by
      intro v hv
      exact absurd hv (List.not_mem_nil v))
    (by simp)
    (by
      intro v hv
      rw [List.mem_singleton] at hv
      subst hv
      exact ⟨hst, hsw, hsh⟩)
  have hKiff : ∀ w, w ∈ componentFin m start ↔ reachAvoid m (insert start V0) start w := by
    intro w
    rw [mem_componentFin_iff hsw hsh]
    exact connected_iff_reachAvoid_insert hclosed hsV
  have hKV0 : ∀ w ∈ componentFin m start, w ∉ V0 := fun w hw =>
    (connected_avoids_closed hclosed hsV ((mem_componentFin_iff hsw hsh).mp hw)).1
  have hfin : (bfs m start V0).1 = V0 ∪ componentFin m start := by
    show (bfsAux m [start] (insert start V0) []).1 = _
    ext w
    rw [P2 w]
    constructor
    · rintro (h | ⟨v, hv, hr⟩)
      · rcases Finset.mem_insert.mp h with rfl | h2
        · exact Finset.mem_union_right _ (mem_componentFin_self m w)
        · exact Finset.mem_union_left _ h2
      · rw [List.mem_singleton] at hv
        subst hv
        exact Finset.mem_union_right _ ((hKiff w).mpr hr)
    · intro h
      rcases Finset.mem_union.mp h with h2 | h2
      · exact Or.inl (Finset.mem_insert_of_mem h2)
      · exact Or.inr ⟨start, List.mem_singleton_self _, (hKiff w).mp h2⟩
  refine ⟨P4, ?_, hfin⟩
  show (bfsAux m [start] (insert start V0) []).2.toFinset = _
  rw [P3]
  have hfin' : (bfsAux m [start] (insert start V0) []).1 = V0 ∪ componentFin m start := hfin
  rw [hfin']
  ext w
  simp only [List.toFinset_nil, List.toFinset_cons, Finset.mem_union, Finset.mem_insert,
    Finset.mem_sdiff, Finset.empty_union, Finset.mem_singleton, Finset.not_mem_empty,
    false_or, or_false]
  constructor
  · rintro (rfl | ⟨hwk, hwn⟩)
    · exact mem_componentFin_self m w
    · rcases hwk with hv0 | hk
      · exact absurd (Or.inr hv0) hwn
      · exact hk
  · intro hk
    by_cases hws : w = start
    · exact Or.inl hws
    · refine Or.inr ⟨Or.inr hk, ?_⟩
      rintro (h | h)
      · exact hws h
      · exact hKV0 w hk h

/-! ### The outer scan emits exactly the large components -/

/-- The scan order enumerates exactly the in-bounds cells. -/
theorem mem_scanOrder_iff {m : BoolMask} {c : Cell} :
    c ∈ scanOrder m ↔ c.1 < m.width ∧ c.2 < m.height := by
  obtain ⟨a, b⟩ := c
  simp only [scanOrder, List.mem_flatMap, List.mem_map, List.mem_range, Prod.mk.injEq]
  constructor
  · rintro ⟨y, hy, x, hx, rfl, rfl⟩
    exact ⟨hx, hy⟩
  · rintro ⟨h1, h2⟩
    exact ⟨b, h2, a, h1, rfl, rfl⟩

/-- As a set, the scan order is the grid. -/
theorem scanOrder_toFinset (m : BoolMask) : (scanOrder m).toFinset = allCells m := by
  ext c
  rw [List.mem_toFinset, mem_scanOrder_iff, allCells, Finset.mem_product,
    Finset.mem_range, Finset.mem_range]

/-- The bounding box computed from a duplicate-free point list is the
bounding box of its cell set. -/
theorem regionOfPoints_eq_regionOfComponent (pts : List Cell) (hnd : pts.Nodup)
    (hne : pts ≠ []) : regionOfPoints pts = regionOfComponent pts.toFinset := by
  have hne' : pts.toFinset.Nonempty := by
    obtain ⟨c, hc⟩ := List.exists_mem_of_ne_nil pts hne
    exact ⟨c, List.mem_toFinset.mpr hc⟩
  have hxmin : (pts.map Prod.fst).min?
      = some ((pts.toFinset.image Prod.fst).min' (hne'.image _)) := by
    rw [List.min?_eq_some_iff']
    constructor
    · have hm := (pts.toFinset.image Prod.fst).min'_mem (hne'.image _)
      rw [Finset.mem_image] at hm
      obtain ⟨c, hc, hceq⟩ := hm
      exact List.mem_map.mpr ⟨c, List.mem_toFinset.mp hc, hceq⟩
    · intro b hb
      obtain ⟨c, hc, hceq⟩ := List.mem_map.mp hb
      exact hceq ▸ Finset.min'_le _ _ (Finset.mem_image_of_mem _ (List.mem_toFinset.mpr hc))
  have hymin : (pts.map Prod.snd).min?
      = some ((pts.toFinset.image Prod.snd).min' (hne'.image _)) := by
    rw [List.min?_eq_some_iff']
    constructor
    · have hm := (pts.toFinset.image Prod.snd).min'_mem (hne'.image _)
      rw [Finset.mem_image] at hm
      obtain ⟨c, hc, hceq⟩ := hm
      exact List.mem_map.mpr ⟨c, List.mem_toFinset.mp hc, hceq⟩
    · intro b hb
      obtain ⟨c, hc, hceq⟩ := List.mem_map.mp hb
      exact hceq ▸ Finset.min'_le _ _ (Finset.mem_image_of_mem _ (List.mem_toFinset.mpr hc))
  have hxmax : (pts.map Prod.fst).max?
      = some ((pts.toFinset.image Prod.fst).max' (hne'.image _)) := by
    rw [List.max?_eq_some_iff']
    constructor
    · have hm := (pts.toFinset.image Prod.fst).max'_mem (hne'.image _)
      rw [Finset.mem_image] at hm
      obtain ⟨c, hc, hceq⟩ := hm
      exact List.mem_map.mpr ⟨c, List.mem_toFinset.mp hc, hceq⟩
    · intro b hb
      obtain ⟨c, hc, hceq⟩ := List.mem_map.mp hb
      exact hceq ▸ Finset.le_max' _ _ (Finset.mem_image_of_mem _ (List.mem_toFinset.mpr hc))
  have hymax : (pts.map Prod.snd).max?
      = some ((pts.toFinset.image Prod.snd).max' (hne'.image _)) := by
    rw [List.max?_eq_some_iff']
    constructor
    · have hm := (pts.toFinset.image Prod.snd).max'_mem (hne'.image _)
      rw [Finset.mem_image] at hm
      obtain ⟨c, hc, hceq⟩ := hm
      exact List.mem_map.mpr ⟨c, List.mem_toFinset.mp hc, hceq⟩
    · intro b hb
      obtain ⟨c, hc, hceq⟩ := List.mem_map.mp hb
      exact hceq ▸ Finset.le_max' _ _ (Finset.mem_image_of_mem _ (List.mem_toFinset.mpr hc))
  unfold regionOfPoints regionOfComponent
  rw [dif_pos hne', hxmin, hymin, hxmax, hymax]
  simp only [Option.getD_some, Region.mk.injEq, List.toFinset_card_of_nodup hnd]

/-- Invariant of the outer scan fold: after processing any prefix of cells
(`S` the processed set, `todo` the remainder), the visited set is the union
of the components seeded in the processed true cells, and the emitted
regions are exactly the bounding boxes of the large components seeded
there. -/
theorem ccFold_spec (m : BoolMask) (todo : List Cell) :
    ∀ (S visited : Finset Cell) (regions : List Region),
    (∀ c ∈ todo, c.1 < m.width ∧ c.2 < m.height) →
    (∀ c ∈ S, c.1 < m.width ∧ c.2 < m.height) →
    visited = (S.filter fun c => m.cell c.1 c.2 = true).biUnion (componentFin m) →
    (↑regions : Multiset Region) = Multiset.map (fun s => regionOfComponent s)
      (((S.filter fun c => m.cell c.1 c.2 = true).image (componentFin m)).filter
        (fun s => minRegionSize ≤ s.card)).val →
    (todo.foldl (ccStep m) (visited, regions)).1 =
      (((S ∪ todo.toFinset).filter fun c => m.cell c.1 c.2 = true).biUnion (componentFin m))
    ∧ (↑(todo.foldl (ccStep m) (visited, regions)).2 : Multiset Region) =
      Multiset.map (fun s => regionOfComponent s)
        ((((S ∪ todo.toFinset).filter fun c => m.cell c.1 c.2 = true).image
          (componentFin m)).filter (fun s => minRegionSize ≤ s.card)).val := by
  induction todo with
  | nil =>
    intro S visited regions htodo hS hvis hreg
    simp only [List.foldl_nil, List.toFinset_nil, Finset.union_empty]
    exact ⟨hvis, hreg⟩
  | cons c todo ih =>
    intro S visited regions htodo hS hvis hreg
    rw [List.foldl_cons, List.toFinset_cons, Finset.union_insert, ← Finset.insert_union]
    obtain ⟨hcw, hch⟩ := htodo c (List.mem_cons_self c todo)
    have htodo' : ∀ x ∈ todo, x.1 < m.width ∧ x.2 < m.height :=
      fun x hx => htodo x (List.mem_cons_of_mem c hx)
    have hS' : ∀ x ∈ insert c S, x.1 < m.width ∧ x.2 < m.height := by
      intro x hx
      rcases Finset.mem_insert.mp hx with rfl | h
      · exact ⟨hcw, hch⟩
      · exact hS x h
    by_cases hcell : m.cell c.1 c.2 = true
    · by_cases hvisc : c ∈ visited
      · -- already-visited true cell: nothing happens, its component is already counted
        have hstep : ccStep m (visited, regions) c = (visited, regions) := by
          unfold ccStep
          rw [if_neg]
          rintro ⟨-, h⟩
          exact h hvisc
        rw [hstep]
        obtain ⟨e, he, hce⟩ := Finset.mem_biUnion.mp (hvis ▸ hvisc)
        obtain ⟨heS, het⟩ := Finset.mem_filter.mp he
        obtain ⟨hew, heh⟩ := hS e heS
        have hcomp : componentFin m c = componentFin m e :=
          componentFin_eq_of_mem hew heh hcw hch hce
        have hmemim : componentFin m c
            ∈ (S.filter fun x => m.cell x.1 x.2 = true).image (componentFin m) := by
          rw [hcomp]
          exact Finset.mem_image_of_mem _ he
        refine ih (insert c S) visited regions htodo' hS' ?_ ?_
        · rw [Finset.filter_insert, if_pos hcell, Finset.biUnion_insert, hvis,
            Finset.union_eq_right.mpr]
          intro x hx
          rw [Finset.mem_biUnion]
          exact ⟨e, he, hcomp ▸ hx⟩
        · rw [Finset.filter_insert, if_pos hcell, Finset.image_insert,
            Finset.insert_eq_self.mpr hmemim]
          exact hreg
      · -- fresh true cell: one component search runs
        have hclosed : ∀ u ∈ visited, ∀ d, adjacent m u d → d ∈ visited := by
          intro u hu d hadj
          rw [hvis, Finset.mem_biUnion] at hu ⊢
          obtain ⟨e, he, hue⟩ := hu
          obtain ⟨hew, heh⟩ := hS e (Finset.mem_filter.mp he).1
          exact ⟨e, he, componentFin_closed hew heh hue hadj⟩
        obtain ⟨hbnd, hbpts, hbvis⟩ := bfs_component m visited c hcell hcw hch hvisc hclosed
        have hstep : ccStep m (visited, regions) c =
            (if minRegionSize ≤ (bfs m c visited).2.length
             then ((bfs m c visited).1, regions ++ [regionOfPoints (bfs m c visited).2])
             else ((bfs m c visited).1, regions)) := by
          unfold ccStep
          rw [if_pos ⟨hcell, hvisc⟩]
        have hKnotin : componentFin m c
            ∉ (S.filter (fun x => m.cell x.1 x.2 = true)).image (componentFin m) := by
          intro hmem
          obtain ⟨e, he, hec⟩ := Finset.mem_image.mp hmem
          apply hvisc
          rw [hvis, Finset.mem_biUnion]
          exact ⟨e, he, hec ▸ mem_componentFin_self m c⟩
        have hvis' : (bfs m c visited).1
            = ((insert c S).filter fun x => m.cell x.1 x.2 = true).biUnion
              (componentFin m) := by
          rw [hbvis, hvis, Finset.filter_insert, if_pos hcell, Finset.biUnion_insert]
          exact Finset.union_comm _ _
        by_cases hsize : minRegionSize ≤ (bfs m c visited).2.length
        · rw [hstep, if_pos hsize]
          have hne : (bfs m c visited).2 ≠ [] := by
            intro h
            rw [h] at hsize
            simp [minRegionSize] at hsize
          have hrc : regionOfPoints (bfs m c visited).2
              = regionOfComponent (componentFin m c) := by
            rw [regionOfPoints_eq_regionOfComponent _ hbnd hne, hbpts]
          have hKcard : minRegionSize ≤ (componentFin m c).card := by
            rw [← hbpts, List.toFinset_card_of_nodup hbnd]
            exact hsize
          refine ih (insert c S) _ _ htodo' hS' hvis' ?_
          rw [Finset.filter_insert, if_pos hcell, Finset.image_insert,
            Finset.filter_insert, if_pos hKcard,
            Finset.insert_val_of_not_mem
              (fun h => hKnotin (Finset.mem_of_mem_filter _ h)),
            Multiset.map_cons, ← hreg, hrc]
          have hperm : (regions ++ [regionOfComponent (componentFin m c)]).Perm
              (regionOfComponent (componentFin m c) :: regions) :=
            List.perm_append_singleton _ _
          rw [Multiset.coe_eq_coe.mpr hperm, ← Multiset.cons_coe]
        · rw [hstep, if_neg hsize]
          have hKcard : ¬ minRegionSize ≤ (componentFin m c).card := by
            rw [← hbpts, List.toFinset_card_of_nodup hbnd]
            exact hsize
          refine ih (insert c S) _ _ htodo' hS' hvis' ?_
          rw [Finset.filter_insert, if_pos hcell, Finset.image_insert,
            Finset.filter_insert, if_neg hKcard]
          exact hreg
    · -- false cell: skipped and irrelevant
      have hstep : ccStep m (visited, regions) c = (visited, regions) := by
        unfold ccStep
        rw [if_neg]
        rintro ⟨h, -⟩
        exact hcell h
      rw [hstep]
      refine ih (insert c S) visited regions htodo' hS' ?_ ?_
      · rw [Finset.filter_insert, if_neg hcell]
        exact hvis
      · rw [Finset.filter_insert, if_neg hcell]
        exact hreg

/-- Claim C5, confirmed: for every boolean mask, connected-component
labeling (a) emits, as a multiset, exactly one Region per 8-connected
component of at least 50 true cells — with `x = minX`, `y = minY`,
`width = maxX - minX + 1`, `height = maxY - minY + 1` and `pixelCount` the
component's cell count, and no Region for any smaller component —
(b) treats touching true cells, diagonal offsets included, as one
component, and (c) keeps a true cell all of whose eight neighbors are
false in a component of its own. -/
theorem connected_components_spec (m : BoolMask) :
    (↑(findConnectedComponents m) : Multiset Region)
      = Multiset.map (fun s => regionOfComponent s) (componentsAtLeast m).val
    ∧ (∀ c d : Cell, c.1 < m.width → c.2 < m.height → d.1 < m.width → d.2 < m.height →
        m.cell c.1 c.2 = true → m.cell d.1 d.2 = true →
        ((d.1 : ℤ) - c.1, (d.2 : ℤ) - c.2) ∈ directions →
        d ∈ componentFin m c)
    ∧ (∀ c : Cell, c.1 < m.width → c.2 < m.height →
        (∀ d ∈ neighborCells m c.1 c.2, m.cell d.1 d.2 = false) →
        componentFin m c = {c}) := by
  refine ⟨?_, ?_, ?_⟩
  · obtain ⟨-, h2⟩ := ccFold_spec m (scanOrder m) ∅ ∅ []
      (fun c hc => mem_scanOrder_iff.mp hc)
      (fun c hc => absurd hc (Finset.not_mem_empty c))
      (by simp)
      (by simp)
    rw [Finset.empty_union, scanOrder_toFinset] at h2
    unfold findConnectedComponents componentsAtLeast
    exact h2
  · intro c d hc1 hc2 hd1 hd2 hct hdt hoff
    exact (mem_componentFin_iff hc1 hc2).mpr
      (Relation.ReflTransGen.single ⟨hct, hdt, hc1, hc2, hd1, hd2, hoff⟩)
  · intro c hc1 hc2 hiso
    apply Finset.Subset.antisymm
    · intro w hw
      have hconn := (mem_componentFin_iff hc1 hc2).mp hw
      rcases Relation.ReflTransGen.cases_head hconn with rfl | ⟨x, hadj, -⟩
      · exact Finset.mem_singleton_self _
      · obtain ⟨hmem, hxt⟩ := adjacent_mem_neighborCells hadj
        rw [hiso x hmem] at hxt
        exact absurd hxt (by simp)
    · rw [Finset.singleton_subset_iff]
      exact mem_componentFin_self m c

/-- Witness for C5: diagonal connectivity on a concrete 2x2 mask, and
isolation of a concrete surrounded-by-false cell on a 3x3 mask. -/
theorem connected_components_spec_witness :
    ((1, 1) : Cell) ∈ componentFin ⟨2, 2, [true, false, false, true]⟩ (0, 0)
    ∧ componentFin ⟨3, 3, [false, false, false, false, true, false, false, false, false]⟩
        (1, 1) = {(1, 1)} :=
  ⟨(connected_components_spec ⟨2, 2, [true, false, false, true]⟩).2.1 (0, 0) (1, 1)
      (by decide) (by decide) (by decide) (by decide) (by decide) (by decide) (by decide),
   (connected_components_spec
      ⟨3, 3, [false, false, false, false, true, false, false, false, false]⟩).2.2 (1, 1)
      (by decide) (by decide) (by decide)⟩

end BgRemover
